import Mathlib

/-!
Verification development for the UFO pruning strategy
(`pruning_strategy.py`).  The Python source is shallowly embedded below:
pure numeric code becomes functions over `ℚ`, `np.inf` becomes `⊤` in
`WithTop ℚ`, a Python function body that can fall through without a
`return` yields an `Option`, and code that can raise an exception is
modelled in `Except String`.
-/

/-- A 3-D point, as handled by the numpy arrays in the source. -/
def Vec3 : Type := ℚ × ℚ × ℚ

instance : Inhabited Vec3 := ⟨(0, 0, 0)⟩

instance : DecidableEq Vec3 := by unfold Vec3; infer_instance

/-- Componentwise difference of two points (`a - b` on numpy arrays). -/
def vsub (a b : Vec3) : Vec3 := (a.1 - b.1, a.2.1 - b.2.1, a.2.2 - b.2.2)

/-- `np.cumsum` on a 1-D array. -/
def cumsum (l : List ℚ) : List ℚ := (l.scanl (· + ·) 0).tail

/-- One step of insertion sort, used to model Python's `list.sort()`. -/
def insSorted (x : ℚ) : List ℚ → List ℚ
  | [] => [x]
  | y :: ys => if x ≤ y then x :: y :: ys else y :: insSorted x ys

/-- Python's `list.sort()` (the result is the sorted permutation; on `ℚ`
with a total order that sorted sequence is unique, so insertion sort is an
exact model). -/
def pySort (l : List ℚ) : List ℚ := l.foldr insSorted []

/-- The interior scan of `query_dist_from_line_points` (source lines
207-209): walk the adjacent pairs `zip(sorted_array[:-1], sorted_array[1:])`
in order and return on the first pair enclosing `pt`; if no pair matches the
Python function falls through and implicitly returns `None`, modelled as
`none`. -/
def scanPairs (p : ℚ) : List ℚ → Option ℚ
  | l :: u :: rest =>
    if l ≤ p ∧ p < u then some (min (p - l) (u - p))
    else scanPairs p (u :: rest)
  | _ => none

/-- `query_dist_from_line_points(pt, sorted_array)` (source lines 196-209).
`np.inf` is `(⊤ : WithTop ℚ)`; the value `none` models Python's implicit
`None` when the final loop falls through. -/
def query_dist_from_line_points (p : ℚ) (s : List ℚ) : Option (WithTop ℚ) :=
  match s with
  | [] => some ⊤
  | a :: rest =>
    if p < a then some (((a - p : ℚ) : WithTop ℚ))
    else if (a :: rest).getLast (List.cons_ne_nil a rest) ≤ p then
      some (((p - (a :: rest).getLast (List.cons_ne_nil a rest) : ℚ) : WithTop ℚ))
    else (scanPairs p (a :: rest)).map (fun q => (q : WithTop ℚ))

/-- Minimum of `|p - v|` over the elements of a list, `⊤` for the empty
list.  This is the mathematical value `query_dist_from_line_points`
computes on sorted input. -/
def minAbsDist (p : ℚ) (s : List ℚ) : WithTop ℚ :=
  (s.map (fun v => ((|p - v| : ℚ) : WithTop ℚ))).foldr min ⊤

/-- Maximum element of a list of rationals, `none` for the empty list. -/
def listMax? : List ℚ → Option ℚ
  | [] => none
  | x :: xs =>
    some (match listMax? xs with
          | none => x
          | some m => max x m)

/-- Minimum element of a list of rationals, `none` for the empty list. -/
def listMin? : List ℚ → Option ℚ
  | [] => none
  | x :: xs =>
    some (match listMin? xs with
          | none => x
          | some m => min x m)

/-- Reflection of a set of positions through the point `c`, re-sorted
(for an ascending input the reflected values are descending, so re-sorting
is reversal). -/
def reflectList (c : ℚ) (s : List ℚ) : List ℚ :=
  (s.map (fun v => 2 * c - v)).reverse

/-- `np.argmax(xs > c)`: index of the first entry exceeding `c`, or `0`
when no entry does (an all-False mask has its first maximal entry at
index 0). -/
def np_argmax_gt (xs : List ℚ) (c : ℚ) : ℕ :=
  match xs.findIdx? (fun x => decide (c < x)) with
  | some i => i
  | none => 0

/-- Fold-index computation of `tie_down_trunk` (source line 71):
`(np.argmax(cumul_lens > curve_len) or len(nodes) - 2) + 1`, where
Python's `x or y` yields `y` whenever `x == 0`. -/
def tie_down_node_idx (cumul : List ℚ) (curve_len : ℚ) (numNodes : ℕ) : ℕ :=
  (if np_argmax_gt cumul curve_len = 0 then numNodes - 2
   else np_argmax_gt cumul curve_len) + 1

/-- One branch record of the plant graph (`self.tree.branches[i]`) with the
fields the strategy reads: `generation`, `nodes`, `points`, `length`. -/
structure Branch where
  generation : Int
  nodes : List Int
  points : List Vec3
  length : ℚ

instance : Inhabited Branch := ⟨⟨0, [], [], 0⟩⟩

/-- The plant graph as the strategy observes and mutates it: the branch
table, the per-edge module annotations, and the accumulated
`set_guide_on_nodes` effects (the only graph mutation the strategy performs
on any non-raising path). -/
structure PTree where
  branches : List Branch
  preMods : Int → Int → List (String × List Int)
  postMods : Int → Int → List (String × List Int)
  guides : List (List Int × List Vec3 × String)

/-- `search_branches('generation', '=', v)`: ids of the branches whose
generation equals `v`, in table order. -/
def search_branches (t : PTree) (v : Int) : List ℕ :=
  (List.range t.branches.length).filter
    (fun i => decide ((t.branches.getD i default).generation = v))

/-- `search_branches(..., assert_unique=True)`: fails loudly unless exactly
one branch matches. -/
def search_unique (t : PTree) (v : Int) : Except String ℕ :=
  match search_branches t v with
  | [i] => .ok i
  | _ => .error "AssertionError: branch filter not unique"

/-- Truth of `1 in dict(edge.get('post_modules', [])).get('Flags', [])`
(source lines 50-51); Python's `dict` keeps the last binding of a repeated
key. -/
def hasTieFlag (mods : List (String × List Int)) : Bool :=
  match mods.reverse.find? (fun m => m.1 == "Flags") with
  | some m => m.2.contains 1
  | none => false

/-- Index of the internode after the last tied trunk edge (source lines
48-53): enumerate the trunk edges in order, keeping `idx + 1` for the last
edge whose post-modules carry tie flag `1`, defaulting to 0. -/
def computeLastTieIdx (t : PTree) (nodes : List Int) : ℕ :=
  (List.range (nodes.length - 1)).foldl
    (fun acc i =>
      if hasTieFlag (t.postMods (nodes.getD i 0) (nodes.getD (i + 1) 0))
      then i + 1 else acc) 0

/-- Controller state (`__init__`, source lines 26-27). -/
structure CtrlState where
  next_trunk_target : ℕ
  leaders_assigned : Bool

/-- Modelled from the spec: the external geometry collaborators consumed by
`tie_down_trunk`, which live outside this repository.  `nrm` is
`np.linalg.norm` on a 3-D vector; `seqDist` is
`target.get_point_sequence_dist`, returning the distance from the current
trunk target to the nearest point of the given polyline together with the
target point (§6 "Target geometry"); `fit` is
`curves.run_cubic_bezier_strain_opt` followed by sampling the fitted
`CubicBezier` at 10 parameters, `none` modelling `rez.success == False` and
`some cps` the sampled curve points (§6 "Curve fit").  The first `ℕ`
argument of `seqDist` and `fit` is the index of the current trunk
target. -/
structure Geom where
  nrm : Vec3 → ℚ
  seqDist : ℕ → List Vec3 → ℚ × Vec3
  fit : ℕ → Vec3 → Vec3 → Vec3 → Option (List Vec3)

/-- Per-internode lengths of the untied trunk tail (source lines 54-57):
the branch points after the last tie, with `np.linalg.norm(pts[:-1] -
pts[1:], axis=1)` applied to consecutive pairs. -/
def trunkTailOffsets (g : Geom) (t : PTree) (bi : ℕ) : List ℚ :=
  let b := t.branches.getD bi default
  let pts := b.points.drop (computeLastTieIdx t b.nodes)
  (pts.zip pts.tail).map (fun pr => g.nrm (vsub pr.1 pr.2))

/-- `tie_down_trunk` (source lines 39-74).  Raising paths (e.g. indexing an
empty cumulative-length array when the untied tail has a single node) are
`Except.error`; every returning path yields the new controller state and
graph. -/
def tie_down_trunk (g : Geom) (T : ℕ) (s : CtrlState) (t : PTree) :
    Except String (CtrlState × PTree) :=
  if s.next_trunk_target < T then
    match search_unique t 0 with
    | .error e => .error e
    | .ok bi =>
      let b := t.branches.getD bi default
      let lti := computeLastTieIdx t b.nodes
      let nodes := b.nodes.drop lti
      let pts := b.points.drop lti
      let cumul := cumsum (trunkTailOffsets g t bi)
      match cumul.getLast? with
      | none => .error "IndexError: empty cumulative length array"
      | some len =>
        if 0 < len then
          match pts.head? with
          | none => .error "IndexError: empty point array"
          | some p0 =>
            let dt := g.seqDist s.next_trunk_target pts
            if dt.1 + g.nrm (vsub dt.2 p0) < len then
              match pts.get? (if nodes.getD 0 0 == 0 then 2 else 1) with
              | none => .error "IndexError: tangent point"
              | some ptan =>
                match g.fit s.next_trunk_target p0 dt.2 (vsub ptan p0) with
                | none => .ok (s, t)
                | some curve_pts =>
                  let curve_len := ((curve_pts.zip curve_pts.tail).map
                    (fun pr => g.nrm (vsub pr.1 pr.2))).sum
                  let tdi := tie_down_node_idx cumul curve_len nodes.length
                  .ok (⟨s.next_trunk_target + 1, s.leaders_assigned⟩,
                       ⟨t.branches, t.preMods, t.postMods,
                        t.guides ++ [(nodes.take (tdi + 1), curve_pts, "GlobalGuide")]⟩)
            else .ok (s, t)
        else .ok (s, t)
  else .ok (s, t)

/-- Iterate `tie_down_trunk` over a sequence of ticks; each tick observes
the then-current plant graph (grown externally between ticks), so the
sequence of graphs is arbitrary. -/
def tie_down_run (g : Geom) (T : ℕ) : CtrlState → List PTree →
    Except String CtrlState
  | s, [] => .ok s
  | s, t :: rest =>
    match tie_down_trunk g T s t with
    | .error e => .error e
    | .ok st => tie_down_run g T st.1 rest

/-- Trivial concrete geometry oracle used in closed instances: zero norms
and distances, a curve fit that never converges. -/
def geom0 : Geom := ⟨fun _ => 0, fun _ _ => (0, (0, 0, 0)), fun _ _ _ _ => none⟩

/-- Concrete plant graph used in closed instances: a single trunk branch of
two coincident points (an untied tail of zero arc length). -/
def tree0 : PTree :=
  ⟨[⟨0, [0, 1], [(0, 0, 0), (0, 0, 0)], 0⟩],
   fun _ _ => [], fun _ _ => [], []⟩

/-- Concrete geometry oracle on which a tie succeeds: the taxicab norm
(which agrees with the Euclidean one on the axis-aligned points of
`tree1`), a target at distance 0 projecting to `(1, 0, 0)`, and a
convergent fit sampled to the two points `(0,0,0), (1,0,0)` (arc
length 1). -/
def geom1 : Geom :=
  ⟨fun v => |v.1| + |v.2.1| + |v.2.2|,
   fun _ _ => (0, (1, 0, 0)),
   fun _ _ _ _ => some [(0, 0, 0), (1, 0, 0)]⟩

/-- Concrete plant graph on which a tie succeeds: one trunk branch with
three collinear points 10 apart, no modules anywhere. -/
def tree1 : PTree :=
  ⟨[⟨0, [0, 1, 2], [(0, 0, 0), (10, 0, 0), (20, 0, 0)], 20⟩],
   fun _ _ => [], fun _ _ => [], []⟩

/-- A value stored in the tied-node registry: Python dynamic typing lets
line 113 assign a bare node id where every other site stores a list, so a
registry value is either a list of node ids or a plain int. -/
inductive PyVal where
  | vlist : List Int → PyVal
  | vint : Int → PyVal
deriving DecidableEq

/-- The tied-node registry `tied_nodes = defaultdict(list)` (source line
100), as an insertion-ordered association list (Python dicts preserve
insertion order). -/
def Registry : Type := List (Int × PyVal)

/-- Dictionary lookup without default insertion. -/
def regFind (r : List (Int × PyVal)) (k : Int) : Option PyVal :=
  (r.find? (fun e => e.1 == k)).map (fun e => e.2)

/-- Dictionary assignment `d[k] = v`: overwrite the existing binding or
append a new key at the end. -/
def regSet (r : List (Int × PyVal)) (k : Int) (v : PyVal) :
    List (Int × PyVal) :=
  if (r.find? (fun e => e.1 == k)).isSome then
    r.map (fun e => if e.1 == k then (e.1, v) else e)
  else r ++ [(k, v)]

/-- `defaultdict.__getitem__`: a missing key is inserted with a fresh empty
list, and the (possibly grown) dictionary is returned alongside the
value. -/
def regGetD (r : List (Int × PyVal)) (k : Int) :
    PyVal × List (Int × PyVal) :=
  match regFind r k with
  | some v => (v, r)
  | none => (PyVal.vlist [], r ++ [(k, PyVal.vlist [])])

/-- `tied_nodes[k].append(n)` (source line 124): append to the stored
list, or a TypeError when line 113 has already replaced the list by a bare
int. -/
def regAppend (r : List (Int × PyVal)) (k : Int) (n : Int) :
    Except String (List (Int × PyVal)) :=
  match regGetD r k with
  | (PyVal.vlist l, r1) => .ok (regSet r1 k (PyVal.vlist (l ++ [n])))
  | (PyVal.vint _, _) =>
    .error "AttributeError: int object has no attribute append"

/-- `find_module(module, edge)` (source lines 87-94): payload of the first
pre-module of the edge carrying the given tag. -/
def find_module (t : PTree) (module : String) (e : Int × Int) :
    Option (List Int) :=
  ((t.preMods e.1 e.2).find? (fun m => m.1 == module)).map (fun m => m.2)

/-- Edge indices visited by `zip(nodes[-2:1:-1], nodes[-1:2:-1])` (source
line 108): the zip pairs `(nodes[i], nodes[i+1])` for `i` from `L - 2` down
to `2`, so the scan runs from the branch tip backward but never reaches the
two edges closest to the trunk. -/
def tieScanIdxs (L : ℕ) : List ℕ := (List.range' 2 (L - 3)).reverse

/-- `manage_tied_branch` (source lines 176-190): its first statement
subscripts `self.wire_walls[wall_id]`; with `wire_walls` the integer wall
count — the shape required by `range(self.wire_walls)` on line 129, the
only reading under which `assign_leaders` can run to completion — this
raises immediately. -/
def manage_tied_branch : Except String Unit :=
  .error "TypeError: int object is not subscriptable"

/-- Processing of one scanned edge of a generation-1 branch (source lines
108-115): look for a `Tie` pre-module; on a hit line 113 stores the bare
trunk-attachment node id (not an appended list) under the tied wall id, and
the following `manage_tied_branch` call raises. -/
def scanTieAt (t : PTree) (nodes : List Int) (r : List (Int × PyVal))
    (i : ℕ) : Except String (List (Int × PyVal)) :=
  match find_module t "Tie" (nodes.getD i 0, nodes.getD (i + 1) 0) with
  | none => .ok r
  | some payload =>
    match payload with
    | [w, _slot] =>
      let r1 := regSet r w (PyVal.vint (nodes.getD 0 0))
      match manage_tied_branch with
      | .error e => .error e
      | .ok _ => .ok r1
    | _ => .error "ValueError: tie payload arity"

/-- The backward tie scan of one generation-1 branch (source lines
106-115). -/
def scanBranchTies (t : PTree) (nodes : List Int)
    (r : List (Int × PyVal)) : Except String (List (Int × PyVal)) :=
  (tieScanIdxs nodes.length).foldlM (scanTieAt t nodes) r

/-- The `Mark` check at a branch base (source lines 121-124): look at the
edge `(nodes[0], nodes[1])` and append the attachment node under the
marked wall id. -/
def markStep (t : PTree) (nodes : List Int) (r : List (Int × PyVal)) :
    Except String (List (Int × PyVal)) :=
  match nodes with
  | n0 :: n1 :: _ =>
    match find_module t "Mark" (n0, n1) with
    | none => .ok r
    | some [] => .error "IndexError: empty mark payload"
    | some (w :: _) => regAppend r w n0
  | _ => .error "IndexError: branch has fewer than two nodes"

/-- Registry construction of `assign_leaders` (source lines 98-124): scan
every generation-1 branch for ties, then check its base edge for a
mark. -/
def buildRegistry (t : PTree) : Except String (List (Int × PyVal)) :=
  (search_branches t 1).foldlM
    (fun r bi =>
      let nodes := (t.branches.getD bi default).nodes
      match scanBranchTies t nodes r with
      | .error e => .error e
      | .ok r1 => markStep t nodes r1)
    []

/-- The capacity check of `assign_leaders` (source lines 126-132):
`tied_nodes[wall_id]` on the defaultdict inserts empty lists for missing
walls; `len` of a bare int stored by line 113 raises. -/
def capacityCheck (W quota : ℕ) (r : List (Int × PyVal)) :
    Except String (Bool × List (Int × PyVal)) :=
  (List.range W).foldlM
    (fun acc wall =>
      match regGetD acc.2 (Int.ofNat wall) with
      | (PyVal.vint _, _) =>
        .error "TypeError: object of type int has no len"
      | (PyVal.vlist l, r1) =>
        .ok (acc.1 && decide (quota ≤ l.length), r1))
    (true, r)

/-- Conversion of the registry to per-wall occupied spacings together with
`all_tied_nodes` (source lines 146-151): the comprehension indexes
`root_nodes.index[n]`, subscripting a bound method, so a wall with a
nonempty node list raises; iterating a bare int raises as well; only walls
whose registry value is the empty list survive, each contributing an empty
spacing list and nothing to `all_tied_nodes`. -/
def wallSpacings (r : List (Int × PyVal)) :
    Except String (List (Int × List ℚ) × List Int) :=
  r.foldlM
    (fun acc e =>
      match e.2 with
      | PyVal.vlist [] => .ok (acc.1 ++ [(e.1, [])], acc.2)
      | PyVal.vlist (_ :: _) =>
        .error "TypeError: builtin method is not subscriptable"
      | PyVal.vint _ => .error "TypeError: int object is not iterable")
    ([], [])

/-- `np.cumsum(pts[:-1] - pts[1:])` with a 2-D argument (source lines
142-143): numpy flattens the `(N-1, 3)` difference array row-major before
the cumulative sum, so the resulting "distances" are cumulative sums of raw
coordinate differences, not arc lengths. -/
def npFlattenDiffs (pts : List Vec3) : List ℚ :=
  ((pts.zip pts.tail).map
    (fun pr => [pr.1.1 - pr.2.1, pr.1.2.1 - pr.2.2.1,
                pr.1.2.2 - pr.2.2.2])).flatten

/-- The inner wall-selection loop of the greedy step (source lines
158-168): walls at quota are skipped, walls whose nearest-occupied distance
is below the spacing floor are skipped, and among the rest the wall with
the smallest distance seen so far wins (a `None` distance from an unsorted
spacing list would raise in the `<` comparison). -/
def bestWall (quota : ℕ) (desired c : ℚ) :
    List (Int × List ℚ) → Option (WithTop ℚ) × Option Int →
    Except String (Option (WithTop ℚ) × Option Int)
  | [], acc => .ok acc
  | (wid, sp) :: rest, (bs, bw) =>
    if quota ≤ sp.length then bestWall quota desired c rest (bs, bw)
    else
      match query_dist_from_line_points c sp with
      | none => .error "TypeError: NoneType comparison"
      | some spacing =>
        if spacing < ((desired : ℚ) : WithTop ℚ) then
          bestWall quota desired c rest (bs, bw)
        else
          match bs with
          | none => bestWall quota desired c rest (some spacing, some wid)
          | some b =>
            if spacing < b then
              bestWall quota desired c rest (some spacing, some wid)
            else bestWall quota desired c rest (bs, bw)

/-- Update of one association-list entry (the dict mutation
`wall_spacings[k]`). -/
def alistUpdate (ws : List (Int × List ℚ)) (k : Int)
    (f : List ℚ → List ℚ) : List (Int × List ℚ) :=
  ws.map (fun e => if e.1 == k then (e.1, f e.2) else e)

/-- One iteration of the greedy candidate loop (source lines 154-174):
skip already-tied or too-low candidates, select the best wall, and record
an assignment by appending the candidate position to that wall's occupied
spacings and re-sorting them. -/
def greedyStep (quota : ℕ) (desired bare : ℚ) (tied : List Int)
    (ws : List (Int × List ℚ)) (cand : Int × ℚ) :
    Except String (List (Int × List ℚ)) :=
  if tied.contains cand.1 || cand.2 < bare then .ok ws
  else
    match bestWall quota desired cand.2 ws (none, none) with
    | .error e => .error e
    | .ok (_, none) => .ok ws
    | .ok (_, some w) =>
      .ok (alistUpdate ws w (fun sp => pySort (sp ++ [cand.2])))

/-- The greedy candidate loop over all trunk candidates (source lines
154-174). -/
def greedyLoop (quota : ℕ) (desired bare : ℚ) (tied : List Int)
    (ws : List (Int × List ℚ)) (cands : List (Int × ℚ)) :
    Except String (List (Int × List ℚ)) :=
  cands.foldlM (greedyStep quota desired bare tied) ws

/-- Configuration options with their `params.get` defaults
`leaders_per_wall = 5`, `leader_spacing = 0.9`, `trunk_bare_dist = 5`,
`leader_excess_stub = 2.5` (source lines 127, 137, 155, 178). -/
structure Params where
  leaders_per_wall : ℕ
  leader_spacing : ℚ
  trunk_bare_dist : ℚ
  leader_excess_stub : ℚ

/-- The default parameter values. -/
def defaultParams : Params := ⟨5, 9 / 10, 5, 5 / 2⟩

/-- `assign_leaders` (source lines 97-174).  On every returning path the
plant graph is unchanged: the greedy winner is recorded only in the local
`wall_spacings` (the graph `Mark` flag on line 172 is a TODO in the
source), and the tied-branch paths raise before any mutation. -/
def assign_leaders (p : Params) (W : ℕ) (t : PTree) :
    Except String PTree :=
  match buildRegistry t with
  | .error e => .error e
  | .ok r =>
    match capacityCheck W p.leaders_per_wall r with
    | .error e => .error e
    | .ok (is_full, r1) =>
      if is_full then .ok t
      else
        match search_unique t 0 with
        | .error e => .error e
        | .ok rootBi =>
          let rb := t.branches.getD rootBi default
          match wallSpacings r1 with
          | .error e => .error e
          | .ok (ws, allTied) =>
            let cands :=
              (rb.nodes.drop 1).zip (cumsum (npFlattenDiffs rb.points))
            match greedyLoop p.leaders_per_wall p.leader_spacing
                p.trunk_bare_dist allTied ws cands with
            | .error e => .error e
            | .ok _ => .ok t

/-- `rub_off_trunk_buds` (source lines 84-85): a `pass` placeholder. -/
def rub_off_trunk_buds (t : PTree) : PTree := t

/-- `examine_leaders` (source lines 76-82): rub off trunk buds while the
trunk is shorter than 5 length units, then always assign leaders. -/
def examine_leaders (p : Params) (W : ℕ) (t : PTree) :
    Except String PTree :=
  match search_unique t 0 with
  | .error e => .error e
  | .ok bi =>
    let b := t.branches.getD bi default
    assign_leaders p W (if b.length < 5 then rub_off_trunk_buds t else t)

/-- `apply_strategy` (source lines 35-37): trunk tie-down, then leader
examination. -/
def apply_strategy (g : Geom) (T : ℕ) (p : Params) (W : ℕ)
    (s : CtrlState) (t : PTree) : Except String (CtrlState × PTree) :=
  match tie_down_trunk g T s t with
  | .error e => .error e
  | .ok st =>
    match examine_leaders p W st.2 with
    | .error e => .error e
    | .ok t1 => .ok (st.1, t1)

/-- Concrete plant graph whose single generation-1 branch (5 nodes) carries
a `Tie` for wall 0 on the edge `(12, 13)` — an edge the backward scan does
visit. -/
def treeTieMid : PTree :=
  ⟨[⟨0, [0, 1], [(0, 0, 0), (0, 0, 0)], 6⟩,
    ⟨1, [10, 11, 12, 13, 14],
     [(0, 0, 0), (0, 0, 0), (0, 0, 0), (0, 0, 0), (0, 0, 0)], 4⟩],
   fun a b => if a == 12 && b == 13 then [("Tie", [0, 0])] else [],
   fun _ _ => [], []⟩

/-- Concrete plant graph whose single generation-1 branch (5 nodes) carries
a `Tie` for wall 0 on the edge `(11, 12)` — one of the two base-most edges
the backward scan never visits. -/
def treeTieBase : PTree :=
  ⟨[⟨0, [0, 1], [(0, 0, 0), (0, 0, 0)], 6⟩,
    ⟨1, [10, 11, 12, 13, 14],
     [(0, 0, 0), (0, 0, 0), (0, 0, 0), (0, 0, 0), (0, 0, 0)], 4⟩],
   fun a b => if a == 11 && b == 12 then [("Tie", [0, 0])] else [],
   fun _ _ => [], []⟩

/-- Concrete plant graph with one wall's quota filled by a `Mark`: a trunk
and one generation-1 branch marked for wall 0. -/
def treeMarks : PTree :=
  ⟨[⟨0, [0, 1], [(0, 0, 0), (0, 0, 0)], 6⟩,
    ⟨1, [10, 11], [(0, 0, 0), (0, 0, 0)], 1⟩],
   fun a b => if a == 10 && b == 11 then [("Mark", [0])] else [],
   fun _ _ => [], []⟩

theorem listMax?_nil_iff {l : List ℚ} : listMax? l = none ↔ l = [] := by
  cases l <;> simp [listMax?]

theorem listMax?_spec {l : List ℚ} {m : ℚ} (h : listMax? l = some m) :
    m ∈ l ∧ ∀ x ∈ l, x ≤ m := by
  induction l generalizing m with
  | nil => simp [listMax?] at h
  | cons a t ih =>
    rw [listMax?] at h
    cases ht : listMax? t with
    | none =>
      rw [ht] at h
      have hte : t = [] := listMax?_nil_iff.mp ht
      subst hte
      simp only [Option.some_inj] at h
      subst h
      exact ⟨by simp, by simp⟩
    | some m' =>
      rw [ht] at h
      simp only [Option.some_inj] at h
      subst h
      obtain ⟨hm', hub⟩ := ih ht
      constructor
      · rcases max_choice a m' with hc | hc <;> rw [hc]
        · exact List.mem_cons_self a t
        · exact List.mem_cons_of_mem a hm'
      · intro x hx
        rcases List.mem_cons.mp hx with hx | hx
        · subst hx; exact le_max_left _ _
        · exact le_trans (hub x hx) (le_max_right _ _)

theorem listMin?_nil_iff {l : List ℚ} : listMin? l = none ↔ l = [] := by
  cases l <;> simp [listMin?]

theorem listMin?_spec {l : List ℚ} {m : ℚ} (h : listMin? l = some m) :
    m ∈ l ∧ ∀ x ∈ l, m ≤ x := by
  induction l generalizing m with
  | nil => simp [listMin?] at h
  | cons a t ih =>
    rw [listMin?] at h
    cases ht : listMin? t with
    | none =>
      rw [ht] at h
      have hte : t = [] := listMin?_nil_iff.mp ht
      subst hte
      simp only [Option.some_inj] at h
      subst h
      exact ⟨by simp, by simp⟩
    | some m' =>
      rw [ht] at h
      simp only [Option.some_inj] at h
      subst h
      obtain ⟨hm', hlb⟩ := ih ht
      constructor
      · rcases min_choice a m' with hc | hc <;> rw [hc]
        · exact List.mem_cons_self a t
        · exact List.mem_cons_of_mem a hm'
      · intro x hx
        rcases List.mem_cons.mp hx with hx | hx
        · subst hx; exact min_le_left _ _
        · exact le_trans (min_le_right _ _) (hlb x hx)

theorem listMin?_of_sorted {a : ℚ} {t : List ℚ}
    (hs : List.Sorted (· ≤ ·) (a :: t)) : listMin? (a :: t) = some a := by
  rw [listMin?]
  cases ht : listMin? t with
  | none => rfl
  | some m' =>
    have hm' := (listMin?_spec ht).1
    have : a ≤ m' := List.rel_of_sorted_cons hs m' hm'
    simp [min_eq_left this]

theorem mem_le_getLast {l : List ℚ} (hs : List.Sorted (· ≤ ·) l)
    (hne : l ≠ []) : ∀ x ∈ l, x ≤ l.getLast hne := by
  induction l with
  | nil => exact absurd rfl hne
  | cons a t ih =>
    intro x hx
    cases t with
    | nil =>
      simp at hx
      subst hx
      simp [List.getLast]
    | cons b t' =>
      rw [List.getLast_cons (List.cons_ne_nil b t')]
      rcases List.mem_cons.mp hx with hx | hx
      · subst hx
        calc x ≤ b := List.rel_of_sorted_cons hs b (by simp)
          _ ≤ _ := ih hs.of_cons (List.cons_ne_nil b t')
                b (by simp)
      · exact ih hs.of_cons (List.cons_ne_nil b t') x hx

theorem minAbsDist_nil (p : ℚ) : minAbsDist p [] = ⊤ := rfl

theorem minAbsDist_cons (p a : ℚ) (t : List ℚ) :
    minAbsDist p (a :: t) = min ((|p - a| : ℚ) : WithTop ℚ) (minAbsDist p t) := rfl

theorem minAbsDist_le_of_mem {p v : ℚ} {s : List ℚ} (h : v ∈ s) :
    minAbsDist p s ≤ ((|p - v| : ℚ) : WithTop ℚ) := by
  induction s with
  | nil => cases h
  | cons a t ih =>
    rw [minAbsDist_cons]
    rcases List.mem_cons.mp h with h | h
    · subst h; exact min_le_left _ _
    · exact le_trans (min_le_right _ _) (ih h)

theorem le_minAbsDist {p : ℚ} {c : WithTop ℚ} {s : List ℚ}
    (h : ∀ v ∈ s, c ≤ ((|p - v| : ℚ) : WithTop ℚ)) : c ≤ minAbsDist p s := by
  induction s with
  | nil => exact le_top
  | cons a t ih =>
    rw [minAbsDist_cons]
    exact le_min (h a (by simp)) (ih fun v hv => h v (List.mem_cons_of_mem a hv))

theorem minAbsDist_eq_coe {p v : ℚ} {s : List ℚ} (hv : v ∈ s)
    (h : ∀ w ∈ s, |p - v| ≤ |p - w|) :
    minAbsDist p s = ((|p - v| : ℚ) : WithTop ℚ) :=
  le_antisymm (minAbsDist_le_of_mem hv)
    (le_minAbsDist fun w hw => WithTop.coe_le_coe.mpr (h w hw))

theorem scanPairs_sorted (p : ℚ) :
    ∀ (rest : List ℚ) (a : ℚ), List.Sorted (· ≤ ·) (a :: rest) → a ≤ p →
    p < (a :: rest).getLast (List.cons_ne_nil a rest) →
    ∃ lo hi, scanPairs p (a :: rest) = some (min (p - lo) (hi - p)) ∧
      listMax? ((a :: rest).filter (fun v => decide (v ≤ p))) = some lo ∧
      listMin? ((a :: rest).filter (fun v => decide (p < v))) = some hi := by
  intro rest
  induction rest with
  | nil =>
    intro a _ hap hlast
    rw [List.getLast_singleton] at hlast
    exact absurd hlast (not_lt.mpr hap)
  | cons b rest' ih =>
    intro a hs hap hlast
    by_cases hpb : p < b
    · refine ⟨a, b, ?_, ?_, ?_⟩
      · rw [scanPairs, if_pos ⟨hap, hpb⟩]
      · have hnone : (b :: rest').filter (fun v => decide (v ≤ p)) = [] := by
          apply List.filter_eq_nil_iff.mpr
          intro x hx
          have hbx : b ≤ x := by
            rcases List.mem_cons.mp hx with h | h
            · exact h ▸ le_refl b
            · exact List.rel_of_sorted_cons hs.of_cons x h
          simp
          exact lt_of_lt_of_le hpb hbx
        rw [List.filter_cons, if_pos (by simpa using hap), hnone, listMax?]
        rfl
      · have hself : (b :: rest').filter (fun v => decide (p < v)) = b :: rest' := by
          apply List.filter_eq_self.mpr
          intro x hx
          simp
          rcases List.mem_cons.mp hx with hx | hx
          · exact hx ▸ hpb
          · exact lt_of_lt_of_le hpb (List.rel_of_sorted_cons hs.of_cons x hx)
        rw [List.filter_cons, if_neg (by simpa using not_lt.mpr hap), hself]
        exact listMin?_of_sorted hs.of_cons
    · have hbp : b ≤ p := not_lt.mp hpb
      have hlast' : p < (b :: rest').getLast (List.cons_ne_nil b rest') := by
        rwa [List.getLast_cons (List.cons_ne_nil b rest')] at hlast
      obtain ⟨lo, hi, hscan, hmax, hmin⟩ := ih b hs.of_cons hbp hlast'
      refine ⟨lo, hi, ?_, ?_, ?_⟩
      · rw [scanPairs, if_neg (by intro hc; exact hpb hc.2)]
        exact hscan
      · have hb_in : b ∈ (b :: rest').filter (fun v => decide (v ≤ p)) := by
          simp [hbp]
        have hab : a ≤ b := List.rel_of_sorted_cons hs b (by simp)
        have halo : a ≤ lo := le_trans hab ((listMax?_spec hmax).2 b hb_in)
        rw [List.filter_cons, if_pos (by simpa using hap), listMax?, hmax]
        simp [max_eq_right halo]
      · rw [List.filter_cons, if_neg (by simpa using not_lt.mpr hap)]
        exact hmin

theorem query_eq_minAbsDist (p : ℚ) (s : List ℚ)
    (hs : List.Sorted (· ≤ ·) s) :
    query_dist_from_line_points p s = some (minAbsDist p s) := by
  match s with
  | [] => rfl
  | a :: rest =>
    by_cases hpa : p < a
    · rw [query_dist_from_line_points, if_pos hpa]
      have habs : |p - a| = a - p := by
        rw [abs_of_neg (by linarith)]; ring
      rw [minAbsDist_eq_coe (List.mem_cons_self a rest) (fun w hw => ?_), habs]
      have haw : a ≤ w := by
        rcases List.mem_cons.mp hw with h | h
        · exact h ▸ le_refl a
        · exact List.rel_of_sorted_cons hs w h
      have : |p - w| = w - p := by
        rw [abs_of_neg (by linarith)]; ring
      rw [habs, this]
      linarith
    · have hap : a ≤ p := not_lt.mp hpa
      by_cases hzp : (a :: rest).getLast (List.cons_ne_nil a rest) ≤ p
      · rw [query_dist_from_line_points, if_neg hpa, if_pos hzp]
        set z := (a :: rest).getLast (List.cons_ne_nil a rest) with hz
        have hzmem : z ∈ a :: rest := List.getLast_mem _
        have habs : |p - z| = p - z := abs_of_nonneg (by linarith)
        rw [minAbsDist_eq_coe hzmem (fun w hw => ?_), habs]
        have hwz : w ≤ z := mem_le_getLast hs (List.cons_ne_nil a rest) w hw
        have : |p - w| = p - w := abs_of_nonneg (by linarith)
        rw [habs, this]
        linarith
      · rw [query_dist_from_line_points, if_neg hpa, if_neg hzp]
        obtain ⟨lo, hi, hscan, hmax, hmin⟩ :=
          scanPairs_sorted p rest a hs hap (not_le.mp hzp)
        rw [hscan]
        show some ((min (p - lo) (hi - p) : ℚ) : WithTop ℚ) = _
        congr 1
        obtain ⟨hlo_mem, hlo_ub⟩ := listMax?_spec hmax
        obtain ⟨hhi_mem, hhi_lb⟩ := listMin?_spec hmin
        have hlo_in : lo ∈ a :: rest := List.mem_of_mem_filter hlo_mem
        have hlo_le : lo ≤ p := by
          have := List.of_mem_filter hlo_mem
          simpa using this
        have hhi_in : hi ∈ a :: rest := List.mem_of_mem_filter hhi_mem
        have hhi_gt : p < hi := by
          have := List.of_mem_filter hhi_mem
          simpa using this
        have hub : ∀ x ∈ a :: rest, x ≤ p → x ≤ lo := by
          intro x hx hxp
          exact hlo_ub x (List.mem_filter.mpr ⟨hx, by simpa using hxp⟩)
        have hlb : ∀ x ∈ a :: rest, p < x → hi ≤ x := by
          intro x hx hxp
          exact hhi_lb x (List.mem_filter.mpr ⟨hx, by simpa using hxp⟩)
        by_cases hc : p - lo ≤ hi - p
        · rw [min_eq_left hc]
          have habs : |p - lo| = p - lo := abs_of_nonneg (by linarith)
          rw [minAbsDist_eq_coe hlo_in (fun w hw => ?_), habs]
          rw [habs]
          by_cases hwp : w ≤ p
          · have : |p - w| = p - w := abs_of_nonneg (by linarith)
            rw [this]
            have := hub w hw hwp
            linarith
          · have hpw : p < w := not_le.mp hwp
            have : |p - w| = w - p := by
              rw [abs_of_neg (by linarith)]; ring
            rw [this]
            have := hlb w hw hpw
            linarith
        · have hc' : hi - p ≤ p - lo := le_of_not_le hc
          rw [min_eq_right hc']
          have habs : |p - hi| = hi - p := by
            rw [abs_of_neg (by linarith)]; ring
          rw [minAbsDist_eq_coe hhi_in (fun w hw => ?_), habs]
          rw [habs]
          by_cases hwp : w ≤ p
          · have : |p - w| = p - w := abs_of_nonneg (by linarith)
            rw [this]
            have := hub w hw hwp
            linarith
          · have hpw : p < w := not_le.mp hwp
            have : |p - w| = w - p := by
              rw [abs_of_neg (by linarith)]; ring
            rw [this]
            have := hlb w hw hpw
            linarith

theorem foldr_min_append (l1 l2 : List (WithTop ℚ)) :
    (l1 ++ l2).foldr min ⊤ = min (l1.foldr min ⊤) (l2.foldr min ⊤) := by
  induction l1 with
  | nil => simp [min_eq_right le_top]
  | cons a t ih => simp [ih, min_assoc]

theorem foldr_min_reverse (l : List (WithTop ℚ)) :
    l.reverse.foldr min ⊤ = l.foldr min ⊤ := by
  induction l with
  | nil => rfl
  | cons a t ih =>
    rw [List.reverse_cons, foldr_min_append, ih]
    simp [min_eq_left le_top, min_comm]

theorem minAbsDist_reflect (p c : ℚ) (s : List ℚ) :
    minAbsDist (2 * c - p) (reflectList c s) = minAbsDist p s := by
  unfold minAbsDist reflectList
  rw [List.map_reverse, foldr_min_reverse, List.map_map]
  congr 1
  apply List.map_congr_left
  intro v _
  simp only [Function.comp_apply]
  rw [show 2 * c - p - (2 * c - v) = v - p by ring, abs_sub_comm]

theorem reflectList_sorted {c : ℚ} {s : List ℚ}
    (hs : List.Sorted (· ≤ ·) s) : List.Sorted (· ≤ ·) (reflectList c s) := by
  unfold reflectList
  rw [List.Sorted, List.pairwise_reverse, List.pairwise_map]
  refine hs.imp fun {a b} h => ?_
  show 2 * c - b ≤ 2 * c - a
  linarith

theorem minAbsDist_nonneg (p : ℚ) (s : List ℚ) : 0 ≤ minAbsDist p s :=
  le_minAbsDist fun v _ => by exact_mod_cast abs_nonneg (p - v)

theorem minAbsDist_eq_top_iff (p : ℚ) (s : List ℚ) :
    minAbsDist p s = ⊤ ↔ s = [] := by
  cases s with
  | nil => simp [minAbsDist_nil]
  | cons a t => simp [minAbsDist_cons, min_eq_top, WithTop.coe_ne_top]

/-- C2: on a sorted list, `query_dist_from_line_points` returns infinity for
the empty list, `s[0] - p` when `p` is before the first element, `p - s[-1]`
when `p` is at or after the last element, and otherwise the minimum of the
gaps to the immediate lower neighbor (largest element `≤ p`) and upper
neighbor (smallest element `> p`); on a singleton `[v]` it returns
`|p - v|`. -/
theorem query_dist_cases (p : ℚ) (s : List ℚ)
    (hs : List.Sorted (· ≤ ·) s) :
    (s = [] → query_dist_from_line_points p s = some ⊤) ∧
    (∀ a rest, s = a :: rest → p < a →
      query_dist_from_line_points p s = some (((a - p : ℚ) : WithTop ℚ))) ∧
    (∀ (h : s ≠ []), s.getLast h ≤ p →
      query_dist_from_line_points p s =
        some (((p - s.getLast h : ℚ) : WithTop ℚ))) ∧
    (∀ (h : s ≠ []), ¬ p < s.head h → p < s.getLast h →
      ∃ lo hi, listMax? (s.filter (fun v => decide (v ≤ p))) = some lo ∧
        listMin? (s.filter (fun v => decide (p < v))) = some hi ∧
        query_dist_from_line_points p s =
          some (((min (p - lo) (hi - p) : ℚ) : WithTop ℚ))) ∧
    (∀ v, s = [v] →
      query_dist_from_line_points p s =
        some (((|p - v| : ℚ) : WithTop ℚ))) := by
  refine ⟨?_, ?_, ?_, ?_, ?_⟩
  · intro h; subst h; rfl
  · intro a rest h hpa
    subst h
    rw [query_dist_from_line_points, if_pos hpa]
  · intro h hzp
    match s with
    | a :: rest =>
      have hpa : ¬ p < a := by
        have haz : a ≤ (a :: rest).getLast h :=
          mem_le_getLast hs h a (by simp)
        exact not_lt.mpr (le_trans haz hzp)
      rw [query_dist_from_line_points, if_neg hpa, if_pos hzp]
  · intro h hpa hlast
    match s with
    | a :: rest =>
      have hap : a ≤ p := not_lt.mp (by simpa using hpa)
      obtain ⟨lo, hi, hscan, hmax, hmin⟩ :=
        scanPairs_sorted p rest a hs hap (by simpa using hlast)
      refine ⟨lo, hi, hmax, hmin, ?_⟩
      rw [query_dist_from_line_points, if_neg (by simpa using hpa),
        if_neg (not_le.mpr (by simpa using hlast)), hscan]
      rfl
  · intro v h
    subst h
    by_cases hpv : p < v
    · rw [query_dist_from_line_points, if_pos hpv,
        show |p - v| = v - p by rw [abs_of_neg (by linarith)]; ring]
    · have hvp : v ≤ p := not_lt.mp hpv
      have hgl : List.getLast [v] (List.cons_ne_nil v []) = v := rfl
      rw [query_dist_from_line_points, if_neg hpv,
        if_pos (le_of_eq_of_le hgl hvp), hgl,
        show |p - v| = p - v from abs_of_nonneg (by linarith)]

/-- Closed instance of `query_dist_cases`: for the singleton list `[3]` and
position `7` the result is `|7 - 3|`. -/
theorem query_dist_cases_witness :
    query_dist_from_line_points 7 [3] =
      some (((|(7 : ℚ) - 3| : ℚ) : WithTop ℚ)) :=
  (query_dist_cases 7 [3] (by simp)).2.2.2.2 3 rfl

/-- C10: on sorted input `query_dist_from_line_points` always returns a
value (the interior scan never falls through to Python's implicit `None`),
the value is nonnegative, and it is infinite exactly when the input list is
empty. -/
theorem query_dist_total_nonneg (p : ℚ) (s : List ℚ)
    (hs : List.Sorted (· ≤ ·) s) :
    ∃ v, query_dist_from_line_points p s = some v ∧ 0 ≤ v ∧
      (v = ⊤ ↔ s = []) :=
  ⟨minAbsDist p s, query_eq_minAbsDist p s hs, minAbsDist_nonneg p s,
    minAbsDist_eq_top_iff p s⟩

/-- Closed instance of `query_dist_total_nonneg` at position `1` and sorted
list `[2, 5]`. -/
theorem query_dist_total_nonneg_witness :
    ∃ v, query_dist_from_line_points 1 [2, 5] = some v ∧ 0 ≤ v ∧
      (v = ⊤ ↔ ([(2 : ℚ), 5] : List ℚ) = []) :=
  query_dist_total_nonneg 1 [2, 5] (by norm_num [List.sorted_cons])

/-- C9: `query_dist_from_line_points` is symmetric under reflection through
any point `c`: querying the reflected position `2c - p` against the
reflected, re-sorted list gives the same result as querying `p` against the
original sorted list. -/
theorem query_dist_reflection (p c : ℚ) (s : List ℚ)
    (hs : List.Sorted (· ≤ ·) s) :
    query_dist_from_line_points (2 * c - p) (reflectList c s) =
      query_dist_from_line_points p s := by
  rw [query_eq_minAbsDist _ _ (reflectList_sorted hs),
    query_eq_minAbsDist p s hs, minAbsDist_reflect]

/-- Closed instance of `query_dist_reflection`: reflecting `[1, 3]` and the
position `0` through `c = 2` preserves the result, which is `1`. -/
theorem query_dist_reflection_witness :
    query_dist_from_line_points (2 * 2 - 0) (reflectList 2 [1, 3]) =
      query_dist_from_line_points 0 [1, 3] ∧
    query_dist_from_line_points 0 [1, 3] = some (((1 : ℚ) : WithTop ℚ)) := by
  constructor
  · exact query_dist_reflection 0 2 [1, 3] (by norm_num [List.sorted_cons])
  · norm_num [query_dist_from_line_points]

theorem scanl_add_getLast? (a : ℚ) (l : List ℚ) :
    (l.scanl (· + ·) a).getLast? = some (a + l.sum) := by
  induction l generalizing a with
  | nil => simp [List.scanl]
  | cons x xs ih =>
    rw [List.scanl]
    have h := ih (a + x)
    cases hxs : xs.scanl (· + ·) (a + x) with
    | nil => exact absurd hxs (by cases xs <;> simp [List.scanl])
    | cons y t =>
      rw [hxs] at h
      rw [List.getLast?_cons_cons, h, List.sum_cons]
      congr 1
      ring

theorem cumsum_getLast?_of_ne_nil {l : List ℚ} (h : l ≠ []) :
    (cumsum l).getLast? = some l.sum := by
  rw [cumsum]
  cases l with
  | nil => exact absurd rfl h
  | cons x xs =>
    rw [List.scanl, List.tail_cons, scanl_add_getLast?, List.sum_cons]
    ring_nf

theorem cumsum_nil : cumsum [] = [] := rfl

theorem tie_down_trunk_step_cases (g : Geom) (T : ℕ) (s : CtrlState)
    (t : PTree) (s' : CtrlState) (t' : PTree)
    (h : tie_down_trunk g T s t = .ok (s', t')) :
    (s' = s ∧ t' = t) ∨
      (s'.next_trunk_target = s.next_trunk_target + 1 ∧
        t'.guides.length = t.guides.length + 1 ∧
        s.next_trunk_target < T) := by
  rw [tie_down_trunk] at h
  split at h
  case isFalse hT =>
    cases h
    exact Or.inl ⟨rfl, rfl⟩
  case isTrue hT =>
    split at h
    case h_1 => cases h
    case h_2 bi =>
      simp only [] at h
      split at h
      case h_1 => cases h
      case h_2 len hlast =>
        split at h
        case isFalse => cases h; exact Or.inl ⟨rfl, rfl⟩
        case isTrue hlen =>
          split at h
          case h_1 => cases h
          case h_2 p0 hp0 =>
            split at h
            case isFalse => cases h; exact Or.inl ⟨rfl, rfl⟩
            case isTrue hslack =>
              split at h
              case h_1 => cases h
              case h_2 ptan hptan =>
                split at h
                case h_1 => cases h; exact Or.inl ⟨rfl, rfl⟩
                case h_2 curve_pts hfit =>
                  cases h
                  refine Or.inr ⟨rfl, ?_, hT⟩
                  simp

/-- C1: across any sequence of `tie_down_trunk` calls, `next_trunk_target`
never decreases, increases by exactly 1 on each successful tie (the call
that appends a guide annotation) and is otherwise unchanged, and never
exceeds the number of configured trunk targets. -/
theorem tie_down_trunk_next_monotone :
    (∀ (g : Geom) (T : ℕ) (s : CtrlState) (t : PTree) (s' : CtrlState)
        (t' : PTree), tie_down_trunk g T s t = .ok (s', t') →
      ((s' = s ∧ t' = t) ∨
        (s'.next_trunk_target = s.next_trunk_target + 1 ∧
          t'.guides.length = t.guides.length + 1 ∧
          s.next_trunk_target < T)) ∧
      s.next_trunk_target ≤ s'.next_trunk_target ∧
      (s.next_trunk_target ≤ T → s'.next_trunk_target ≤ T)) ∧
    (∀ (g : Geom) (T : ℕ) (s : CtrlState) (ts : List PTree)
        (s' : CtrlState), tie_down_run g T s ts = .ok s' →
      s.next_trunk_target ≤ s'.next_trunk_target ∧
      (s.next_trunk_target ≤ T → s'.next_trunk_target ≤ T)) := by
  have single : ∀ (g : Geom) (T : ℕ) (s : CtrlState) (t : PTree)
      (s' : CtrlState) (t' : PTree), tie_down_trunk g T s t = .ok (s', t') →
      s.next_trunk_target ≤ s'.next_trunk_target ∧
      (s.next_trunk_target ≤ T → s'.next_trunk_target ≤ T) := by
    intro g T s t s' t' h
    rcases tie_down_trunk_step_cases g T s t s' t' h with
      ⟨hs, -⟩ | ⟨hs, -, hT⟩
    · subst hs; exact ⟨le_refl _, fun hb => hb⟩
    · rw [hs]; exact ⟨Nat.le_succ _, fun _ => hT⟩
  refine ⟨fun g T s t s' t' h =>
    ⟨tie_down_trunk_step_cases g T s t s' t' h, single g T s t s' t' h⟩, ?_⟩
  intro g T s ts
  induction ts generalizing s with
  | nil =>
    intro s' h
    rw [tie_down_run] at h
    cases h
    exact ⟨le_refl _, fun hb => hb⟩
  | cons t rest ih =>
    intro s' h
    rw [tie_down_run] at h
    split at h
    case h_1 => cases h
    case h_2 st hst =>
      have h1 := single g T s t st.1 st.2 hst
      have h2 := ih st.1 s' h
      exact ⟨le_trans h1.1 h2.1, fun hb => h2.2 (h1.2 hb)⟩

/-- Closed instance of `tie_down_trunk_next_monotone`: on the concrete
successful tie of `geom1`/`tree1` the counter advances from 0 to 1 and
stays within the single configured target. -/
theorem tie_down_trunk_next_monotone_witness :
    (0 : ℕ) ≤ (1 : ℕ) ∧ ((0 : ℕ) ≤ 1 → (1 : ℕ) ≤ 1) := by
  have hok : tie_down_trunk geom1 1 ⟨0, false⟩ tree1 =
      .ok (⟨1, false⟩,
        ⟨tree1.branches, tree1.preMods, tree1.postMods,
         [([0, 1, 2], [(0, 0, 0), (1, 0, 0)], "GlobalGuide")]⟩) := by
    norm_num [tie_down_trunk, search_unique, search_branches,
      computeLastTieIdx, hasTieFlag, cumsum, vsub, tie_down_node_idx,
      np_argmax_gt, trunkTailOffsets, geom1, tree1, List.range_succ,
      List.filter]
  exact (tie_down_trunk_next_monotone.1 geom1 1 ⟨0, false⟩ tree1 _ _ hok).2

/-- C6 counterexample: on the concrete tie of `geom1`/`tree1` the fitted
curve has arc length 1 and the tail cumulative lengths are `[10, 20]`, so a
first exceeding index exists and is 0; the claim then demands fold index
`0 + 1 = 1`, but `(np.argmax(cumul_lens > curve_len) or len(nodes) - 2) + 1`
treats the 0 index like "no index found" and applies the second-to-last
fallback, producing index `(3 - 2) + 1 = 2` and a guide span of all three
tail nodes instead of two. -/
theorem tie_down_node_idx_counterexample :
    List.findIdx? (fun x => decide ((1 : ℚ) < x)) [10, 20] = some 0 ∧
    tie_down_node_idx [10, 20] 1 3 = 2 ∧
    (2 : ℕ) ≠ 0 + 1 ∧
    tie_down_trunk geom1 1 ⟨0, false⟩ tree1 =
      .ok (⟨1, false⟩,
        ⟨tree1.branches, tree1.preMods, tree1.postMods,
         [([0, 1, 2], [(0, 0, 0), (1, 0, 0)], "GlobalGuide")]⟩) := by
  refine ⟨?_, ?_, by norm_num, ?_⟩
  · norm_num [List.findIdx?_cons]
  · norm_num [tie_down_node_idx, np_argmax_gt, List.findIdx?_cons]
  · norm_num [tie_down_trunk, search_unique, search_branches,
      computeLastTieIdx, hasTieFlag, cumsum, vsub, tie_down_node_idx,
      np_argmax_gt, trunkTailOffsets, geom1, tree1, List.range_succ,
      List.filter, List.findIdx?_cons]

/-- C6 (amended): the fold index is `i + 1` for the first cumulative-length
index `i` exceeding the curve's arc length whenever that first index is
nonzero; the second-to-last-node fallback `(len(nodes) - 2) + 1` is used
both when no cumulative length exceeds the curve's arc length and when the
first exceeding index is index 0. -/
theorem tie_down_node_idx_characterization (cumul : List ℚ) (c : ℚ)
    (n : ℕ) :
    (∀ i, List.findIdx? (fun x => decide (c < x)) cumul = some i → i ≠ 0 →
      tie_down_node_idx cumul c n = i + 1) ∧
    ((List.findIdx? (fun x => decide (c < x)) cumul = none ∨
      List.findIdx? (fun x => decide (c < x)) cumul = some 0) →
      tie_down_node_idx cumul c n = (n - 2) + 1) := by
  constructor
  · intro i hfind hi
    rw [tie_down_node_idx, np_argmax_gt, hfind]
    simp [hi]
  · intro h
    rcases h with h | h <;> rw [tie_down_node_idx, np_argmax_gt, h] <;> simp

/-- Closed instance of `tie_down_node_idx_characterization`: for cumulative
lengths `[1, 5]` and curve length 3 the first exceeding index is 1, so the
fold index is `1 + 1`. -/
theorem tie_down_node_idx_characterization_witness :
    tie_down_node_idx [1, 5] 3 7 = 1 + 1 :=
  (tie_down_node_idx_characterization [1, 5] 3 7).1 1
    (by norm_num [List.findIdx?_cons]) (by norm_num)

/-- C7: when the untied trunk tail has zero cumulative arc length,
`tie_down_trunk` either raises (a single-node tail indexes the empty
cumulative array) or returns with the plant graph and the controller state
unchanged; on no path is a guide set or `next_trunk_target` moved. -/
theorem tie_down_trunk_zero_length_noop (g : Geom) (T : ℕ) (s : CtrlState)
    (t : PTree) (bi : ℕ)
    (hroot : search_unique t 0 = .ok bi)
    (hzero : (trunkTailOffsets g t bi).sum = 0) :
    (∃ e, tie_down_trunk g T s t = .error e) ∨
      tie_down_trunk g T s t = .ok (s, t) := by
  rw [tie_down_trunk]
  split
  case isFalse => exact Or.inr rfl
  case isTrue hT =>
    rw [hroot]
    simp only []
    split
    case h_1 => exact Or.inl ⟨_, rfl⟩
    case h_2 len hlast =>
      have hne : trunkTailOffsets g t bi ≠ [] := by
        intro hnil
        rw [hnil, cumsum_nil] at hlast
        cases hlast
      rw [cumsum_getLast?_of_ne_nil hne, hzero] at hlast
      injection hlast with hlen0
      split
      case isTrue hpos => rw [← hlen0] at hpos; exact absurd hpos (lt_irrefl 0)
      case isFalse => exact Or.inr rfl

/-- Closed instance of `tie_down_trunk_zero_length_noop` on the
zero-length-tail graph `tree0`. -/
theorem tie_down_trunk_zero_length_noop_witness :
    (∃ e, tie_down_trunk geom0 1 ⟨0, false⟩ tree0 = .error e) ∨
      tie_down_trunk geom0 1 ⟨0, false⟩ tree0 = .ok (⟨0, false⟩, tree0) :=
  tie_down_trunk_zero_length_noop geom0 1 ⟨0, false⟩ tree0 0 rfl
    (by show List.sum [0] = 0; simp)

/-- C5 failing input: a generation-1 branch `[10, 11, 12, 13, 14]` whose
`Tie` sits on the edge `(12, 13)`.  Line 113 stores the bare attachment
node id (`tied_nodes[wall_id] = nodes[0]`, an assignment, not an append),
so the registry value for wall 0 becomes an int rather than a list of
node ids, and the tick raises inside `manage_tied_branch` (with a
mapping-shaped `wire_walls` it would instead raise at
`range(self.wire_walls)` on line 129 or at `len` of the int on line 131).
Moreover the backward scan visits only edge indices `L-2 .. 2`, so a `Tie`
on either of the two base-most edges — as in `treeTieBase` — is never
found and nothing is registered. -/
theorem assign_leaders_tie_registry_defect :
    regFind (regSet [] 0 (PyVal.vint 10)) 0 = some (PyVal.vint 10) ∧
    buildRegistry treeTieMid =
      .error "TypeError: int object is not subscriptable" ∧
    buildRegistry treeTieBase = .ok [] ∧
    tieScanIdxs 5 = [3, 2] :=
  ⟨rfl, rfl, rfl, rfl⟩

/-- C8: when all trunk targets are tied (`next_trunk_target` equals the
target count) and the capacity check finds every wire at quota,
`apply_strategy` returns the controller state and the plant graph
unchanged, and applying it again to its own output yields the same — an
idempotent no-op. -/
theorem apply_strategy_idempotent_when_complete (g : Geom) (T : ℕ)
    (p : Params) (W : ℕ) (s : CtrlState) (t : PTree) (bi : ℕ)
    (r r1 : List (Int × PyVal))
    (hnext : s.next_trunk_target = T)
    (hroot : search_unique t 0 = .ok bi)
    (hreg : buildRegistry t = .ok r)
    (hcap : capacityCheck W p.leaders_per_wall r = .ok (true, r1)) :
    apply_strategy g T p W s t = .ok (s, t) ∧
    Except.bind (apply_strategy g T p W s t)
      (fun st => apply_strategy g T p W st.1 st.2) = .ok (s, t) := by
  have htie : tie_down_trunk g T s t = .ok (s, t) := by
    rw [tie_down_trunk, if_neg (by rw [hnext]; exact lt_irrefl T)]
  have hassign : assign_leaders p W t = .ok t := by
    simp only [assign_leaders, hreg, hcap, if_true]
  have hexam : examine_leaders p W t = .ok t := by
    simp only [examine_leaders, hroot, rub_off_trunk_buds, ite_self]
    exact hassign
  have happ : apply_strategy g T p W s t = .ok (s, t) := by
    simp only [apply_strategy, htie, hexam]
  refine ⟨happ, ?_⟩
  rw [happ]
  exact happ

/-- Closed instance of `apply_strategy_idempotent_when_complete` on
`treeMarks` with one wall and a quota of one leader per wall. -/
theorem apply_strategy_idempotent_witness :
    apply_strategy geom0 0 ⟨1, 9 / 10, 5, 5 / 2⟩ 1 ⟨0, false⟩ treeMarks =
      .ok (⟨0, false⟩, treeMarks) ∧
    Except.bind
      (apply_strategy geom0 0 ⟨1, 9 / 10, 5, 5 / 2⟩ 1 ⟨0, false⟩ treeMarks)
      (fun st => apply_strategy geom0 0 ⟨1, 9 / 10, 5, 5 / 2⟩ 1 st.1 st.2) =
      .ok (⟨0, false⟩, treeMarks) :=
  apply_strategy_idempotent_when_complete geom0 0 ⟨1, 9 / 10, 5, 5 / 2⟩ 1
    ⟨0, false⟩ treeMarks 0 [(0, PyVal.vlist [10])] [(0, PyVal.vlist [10])]
    rfl rfl rfl rfl

theorem bestWall_sound (quota : ℕ) (desired c : ℚ) :
    ∀ (ws : List (Int × List ℚ)) (acc res : Option (WithTop ℚ) × Option Int),
    bestWall quota desired c ws acc = .ok res →
    ∀ w, res.2 = some w → acc.2 = some w ∨
      ∃ sp d, (w, sp) ∈ ws ∧ sp.length < quota ∧
        query_dist_from_line_points c sp = some d ∧
        ¬ d < ((desired : ℚ) : WithTop ℚ) := by
  intro ws
  induction ws with
  | nil =>
    intro acc res h w hw
    rw [bestWall] at h
    cases h
    exact Or.inl hw
  | cons e rest ih =>
    intro acc res h w hw
    obtain ⟨wid, sp⟩ := e
    obtain ⟨bs, bw⟩ := acc
    rw [bestWall] at h
    split at h
    case isTrue hq =>
      rcases ih _ _ h w hw with hacc | ⟨sp1, d, hmem, hlen, hqd, hge⟩
      · exact Or.inl hacc
      · exact Or.inr ⟨sp1, d, List.mem_cons_of_mem _ hmem, hlen, hqd, hge⟩
    case isFalse hq =>
      split at h
      case h_1 => cases h
      case h_2 spacing hqd =>
        split at h
        case isTrue hsp =>
          rcases ih _ _ h w hw with hacc | ⟨sp1, d, hmem, hlen, hqd1, hge⟩
          · exact Or.inl hacc
          · exact Or.inr ⟨sp1, d, List.mem_cons_of_mem _ hmem, hlen, hqd1, hge⟩
        case isFalse hsp =>
          split at h
          case h_1 =>
            rcases ih _ _ h w hw with hacc | ⟨sp1, d, hmem, hlen, hqd1, hge⟩
            · injection hacc with hww
              subst hww
              exact Or.inr ⟨sp, spacing, List.mem_cons_self _ _,
                not_le.mp hq, hqd, hsp⟩
            · exact Or.inr ⟨sp1, d, List.mem_cons_of_mem _ hmem, hlen, hqd1, hge⟩
          case h_2 b =>
            split at h
            case isTrue hb =>
              rcases ih _ _ h w hw with hacc | ⟨sp1, d, hmem, hlen, hqd1, hge⟩
              · injection hacc with hww
                subst hww
                exact Or.inr ⟨sp, spacing, List.mem_cons_self _ _,
                  not_le.mp hq, hqd, hsp⟩
              · exact Or.inr ⟨sp1, d, List.mem_cons_of_mem _ hmem, hlen, hqd1, hge⟩
            case isFalse hb =>
              rcases ih _ _ h w hw with hacc | ⟨sp1, d, hmem, hlen, hqd1, hge⟩
              · exact Or.inl hacc
              · exact Or.inr ⟨sp1, d, List.mem_cons_of_mem _ hmem, hlen, hqd1, hge⟩

theorem insSorted_length (x : ℚ) (l : List ℚ) :
    (insSorted x l).length = l.length + 1 := by
  induction l with
  | nil => rfl
  | cons y ys ih =>
    rw [insSorted]
    split
    · simp
    · simp [ih]

theorem pySort_length (l : List ℚ) : (pySort l).length = l.length := by
  induction l with
  | nil => rfl
  | cons x xs ih =>
    show (insSorted x (pySort xs)).length = xs.length + 1
    rw [insSorted_length, ih]

theorem alistUpdate_keys (ws : List (Int × List ℚ)) (k : Int)
    (f : List ℚ → List ℚ) :
    (alistUpdate ws k f).map Prod.fst = ws.map Prod.fst := by
  unfold alistUpdate
  rw [List.map_map]
  apply List.map_congr_left
  intro e _
  dsimp
  split <;> rfl

theorem alistUpdate_mem {ws : List (Int × List ℚ)} {k : Int}
    {f : List ℚ → List ℚ} {e1 : Int × List ℚ}
    (h : e1 ∈ alistUpdate ws k f) :
    ∃ e ∈ ws, e1.1 = e.1 ∧ (e1 = e ∨ (e.1 = k ∧ e1.2 = f e.2)) := by
  unfold alistUpdate at h
  rcases List.mem_map.mp h with ⟨e, hmem, heq⟩
  by_cases hk : e.1 == k
  · rw [if_pos hk] at heq
    refine ⟨e, hmem, ?_, Or.inr ⟨eq_of_beq hk, ?_⟩⟩
    · rw [← heq]
    · rw [← heq]
  · rw [if_neg hk] at heq
    subst heq
    exact ⟨e, hmem, rfl, Or.inl rfl⟩

theorem alist_nodup_value_eq :
    ∀ (ws : List (Int × List ℚ)), (ws.map Prod.fst).Nodup →
    ∀ {w : Int} {sp sp1 : List ℚ}, (w, sp) ∈ ws → (w, sp1) ∈ ws →
    sp = sp1 := by
  intro ws
  induction ws with
  | nil =>
    intro _ w sp sp1 h
    cases h
  | cons e rest ih =>
    intro hnd w sp sp1 h1 h2
    rw [List.map_cons, List.nodup_cons] at hnd
    rcases List.mem_cons.mp h1 with h1 | h1 <;>
      rcases List.mem_cons.mp h2 with h2 | h2
    · rw [← h1] at h2
      injection h2 with _ hv
      exact hv.symm
    · exfalso
      apply hnd.1
      rw [← h1]
      exact List.mem_map.mpr ⟨(w, sp1), h2, rfl⟩
    · exfalso
      apply hnd.1
      rw [← h2]
      exact List.mem_map.mpr ⟨(w, sp), h1, rfl⟩
    · exact ih hnd.2 h1 h2

theorem greedyStep_bound (quota : ℕ) (desired bare : ℚ) (tied : List Int)
    (ws ws1 : List (Int × List ℚ)) (cand : Int × ℚ)
    (hnd : (ws.map Prod.fst).Nodup)
    (h : greedyStep quota desired bare tied ws cand = .ok ws1) :
    ws1.map Prod.fst = ws.map Prod.fst ∧
    ∀ e1 ∈ ws1, ∃ e ∈ ws, e1.1 = e.1 ∧
      (e1.2 = e.2 ∨ (e.2.length < quota ∧
        e1.2.length = e.2.length + 1)) := by
  rw [greedyStep] at h
  split at h
  · cases h
    exact ⟨rfl, fun e1 he1 => ⟨e1, he1, rfl, Or.inl rfl⟩⟩
  · split at h
    case h_1 => cases h
    case h_2 bs hbw =>
      cases h
      exact ⟨rfl, fun e1 he1 => ⟨e1, he1, rfl, Or.inl rfl⟩⟩
    case h_3 bs w hbw =>
      cases h
      refine ⟨alistUpdate_keys ws w _, ?_⟩
      intro e1 he1
      obtain ⟨e, hmem, hfst, hor⟩ := alistUpdate_mem he1
      rcases hor with he1e | ⟨hek, he12⟩
      · exact ⟨e, hmem, hfst, Or.inl (congrArg Prod.snd he1e)⟩
      · rcases bestWall_sound quota desired cand.2 ws (none, none) _ hbw
          w rfl with hacc | ⟨sp, d, hspmem, hlen, -, -⟩
        · cases hacc
        · have hew : (w, e.2) ∈ ws := by
            have : e = (w, e.2) := by
              rw [← hek]
            rw [← this]
            exact hmem
          have hesp : e.2 = sp := alist_nodup_value_eq ws hnd hew hspmem
          refine ⟨e, hmem, hfst, Or.inr ⟨?_, ?_⟩⟩
          · rw [hesp]
            exact hlen
          · rw [he12, pySort_length, List.length_append]
            rfl

theorem greedyLoop_bound (quota : ℕ) (desired bare : ℚ)
    (tied : List Int) :
    ∀ (cands : List (Int × ℚ)) (ws ws1 : List (Int × List ℚ)),
    (ws.map Prod.fst).Nodup →
    greedyLoop quota desired bare tied ws cands = .ok ws1 →
    ∀ e1 ∈ ws1, ∃ e ∈ ws, e1.1 = e.1 ∧
      (e1.2.length ≤ e.2.length ∨ e1.2.length ≤ quota) := by
  intro cands
  induction cands with
  | nil =>
    intro ws ws1 hnd h e1 he1
    rw [greedyLoop, List.foldlM_nil] at h
    cases h
    exact ⟨e1, he1, rfl, Or.inl (le_refl _)⟩
  | cons cand rest ih =>
    intro ws ws1 hnd h e1 he1
    rw [greedyLoop, List.foldlM_cons] at h
    cases hstep : greedyStep quota desired bare tied ws cand with
    | error e =>
      rw [hstep] at h
      cases h
    | ok wsm =>
      rw [hstep] at h
      obtain ⟨hkeys, hstepb⟩ :=
        greedyStep_bound quota desired bare tied ws wsm cand hnd hstep
      have hndm : (wsm.map Prod.fst).Nodup := by rw [hkeys]; exact hnd
      have h1 : greedyLoop quota desired bare tied wsm rest = .ok ws1 := h
      obtain ⟨em, hem, hfst, hlen⟩ := ih wsm ws1 hndm h1 e1 he1
      obtain ⟨e, hmem, hfst2, hor⟩ := hstepb em hem
      refine ⟨e, hmem, hfst.trans hfst2, ?_⟩
      rcases hlen with hl | hl
      · rcases hor with h2 | ⟨hlt, h2⟩
        · exact Or.inl (le_trans hl (le_of_eq (congrArg List.length h2)))
        · refine Or.inr (le_trans hl ?_)
          rw [h2]
          exact Nat.succ_le_of_lt hlt
      · exact Or.inr hl

/-- C3: during the greedy step no candidate is assigned to a wire whose
nearest-occupied distance is below the spacing floor.  Any wall selected by
the inner loop was compared at a distance not below `leader_spacing`
(walls below the floor are skipped by `continue`), and any mutation made by
the greedy step is exactly an insertion into the selected wall's occupied
list. -/
theorem greedy_respects_spacing_floor :
    (∀ (quota : ℕ) (desired c : ℚ) (ws : List (Int × List ℚ))
        (bs : Option (WithTop ℚ)) (w : Int),
      bestWall quota desired c ws (none, none) = .ok (bs, some w) →
      ∃ sp d, (w, sp) ∈ ws ∧
        query_dist_from_line_points c sp = some d ∧
        ¬ d < ((desired : ℚ) : WithTop ℚ)) ∧
    (∀ (quota : ℕ) (desired bare : ℚ) (tied : List Int)
        (ws ws1 : List (Int × List ℚ)) (cand : Int × ℚ),
      greedyStep quota desired bare tied ws cand = .ok ws1 → ws1 ≠ ws →
      ∃ bs w sp d,
        bestWall quota desired cand.2 ws (none, none) = .ok (bs, some w) ∧
        ws1 = alistUpdate ws w (fun sp0 => pySort (sp0 ++ [cand.2])) ∧
        (w, sp) ∈ ws ∧
        query_dist_from_line_points cand.2 sp = some d ∧
        ¬ d < ((desired : ℚ) : WithTop ℚ)) := by
  have part1 : ∀ (quota : ℕ) (desired c : ℚ) (ws : List (Int × List ℚ))
      (bs : Option (WithTop ℚ)) (w : Int),
      bestWall quota desired c ws (none, none) = .ok (bs, some w) →
      ∃ sp d, (w, sp) ∈ ws ∧
        query_dist_from_line_points c sp = some d ∧
        ¬ d < ((desired : ℚ) : WithTop ℚ) := by
    intro quota desired c ws bs w h
    rcases bestWall_sound quota desired c ws (none, none) _ h w rfl with
      hacc | ⟨sp, d, hmem, -, hqd, hge⟩
    · cases hacc
    · exact ⟨sp, d, hmem, hqd, hge⟩
  refine ⟨part1, ?_⟩
  intro quota desired bare tied ws ws1 cand h hne
  rw [greedyStep] at h
  split at h
  · cases h
    exact absurd rfl hne
  · split at h
    case h_1 => cases h
    case h_2 bs hbw =>
      cases h
      exact absurd rfl hne
    case h_3 bs w hbw =>
      cases h
      obtain ⟨sp, d, hmem, hqd, hge⟩ := part1 quota desired cand.2 ws bs w hbw
      exact ⟨bs, w, sp, d, hbw, rfl, hmem, hqd, hge⟩

/-- Closed instance of `greedy_respects_spacing_floor` on the spec
scenario: occupied positions `[2, 5]`, candidate `3.6`, floor `0.9`; the
selected wall 0 has nearest distance `1.4`, not below the floor. -/
theorem greedy_respects_spacing_floor_witness :
    ∃ sp d, ((0 : Int), sp) ∈ [((0 : Int), [(2 : ℚ), 5])] ∧
      query_dist_from_line_points (18 / 5) sp = some d ∧
      ¬ d < (((9 / 10 : ℚ)) : WithTop ℚ) :=
  greedy_respects_spacing_floor.1 5 (9 / 10) (18 / 5) [(0, [2, 5])]
    (some ((7 / 5 : ℚ) : WithTop ℚ)) 0
    (by norm_num [bestWall, query_dist_from_line_points, scanPairs])

/-- C4: the greedy step never assigns a candidate to a wire already at
`leaders_per_wall` capacity — any selected wall's occupied list was
strictly below quota — and consequently along the greedy loop no wire's
occupied list grows past the quota: every final list is no longer than its
initial length or stays within `leaders_per_wall`. -/
theorem greedy_respects_capacity :
    (∀ (quota : ℕ) (desired c : ℚ) (ws : List (Int × List ℚ))
        (bs : Option (WithTop ℚ)) (w : Int),
      bestWall quota desired c ws (none, none) = .ok (bs, some w) →
      ∃ sp, (w, sp) ∈ ws ∧ sp.length < quota) ∧
    (∀ (quota : ℕ) (desired bare : ℚ) (tied : List Int)
        (cands : List (Int × ℚ)) (ws ws1 : List (Int × List ℚ)),
      (ws.map Prod.fst).Nodup →
      greedyLoop quota desired bare tied ws cands = .ok ws1 →
      ∀ e1 ∈ ws1, ∃ e ∈ ws, e1.1 = e.1 ∧
        (e1.2.length ≤ e.2.length ∨ e1.2.length ≤ quota)) := by
  constructor
  · intro quota desired c ws bs w h
    rcases bestWall_sound quota desired c ws (none, none) _ h w rfl with
      hacc | ⟨sp, d, hmem, hlen, -, -⟩
    · cases hacc
    · exact ⟨sp, hmem, hlen⟩
  · exact fun quota desired bare tied =>
      greedyLoop_bound quota desired bare tied

/-- Closed instance of `greedy_respects_capacity` on the spec scenario:
the selected wall 0 held 2 occupied positions, below the quota of 5. -/
theorem greedy_respects_capacity_witness :
    ∃ sp, ((0 : Int), sp) ∈ [((0 : Int), [(2 : ℚ), 5])] ∧ sp.length < 5 :=
  greedy_respects_capacity.1 5 (9 / 10) (18 / 5) [(0, [2, 5])]
    (some ((7 / 5 : ℚ) : WithTop ℚ)) 0
    (by norm_num [bestWall, query_dist_from_line_points, scanPairs])
